import Mathlib

/-!
Verification of the adaptive recognition pipeline of the calendar-snipping
repository (src/scanner.py) against its natural-language specification.

Strings are modelled as Lean `String` / `List Char`.  Confidence values are
modelled as rationals.  The external collaborators (OpenCV transforms, the
OCR engine, the dateparser engine) are modelled at their interface boundary,
as the specification prescribes; everything inside scanner.py is translated
directly from the source.
-/

namespace Scanner

/-- Whitespace as matched by the Python regex class and by `str.strip`:
ASCII whitespace plus the Unicode whitespace code points. -/
def isPySpace (c : Char) : Bool :=
  c.toNat = 9 || c.toNat = 10 || c.toNat = 11 || c.toNat = 12 || c.toNat = 13 ||
  c.toNat = 28 || c.toNat = 29 || c.toNat = 30 || c.toNat = 31 || c.toNat = 32 ||
  c.toNat = 133 || c.toNat = 160 || c.toNat = 5760 ||
  (8192 ≤ c.toNat && c.toNat ≤ 8202) ||
  c.toNat = 8232 || c.toNat = 8233 || c.toNat = 8239 || c.toNat = 8287 ||
  c.toNat = 12288

/-- The allow-set of `clean_text` (scanner.py line 134): the complement of the
character class removed by the substitution, namely letters, digits,
whitespace and the symbols : / , @ . # - . -/
def allowedChar (c : Char) : Bool :=
  c.isAlpha || c.isDigit || isPySpace c ||
  c = ':' || c = '/' || c = ',' || c = '@' || c = '.' || c = '#' || c = '-'

/-- One left-to-right pass of the whitespace-collapsing substitution
(re.sub of one-or-more whitespace by a single space, scanner.py line 137).
The flag records whether the previous character belonged to a whitespace
run that has already emitted its single space. -/
def collapseGo : Bool → List Char → List Char
  | _, [] => []
  | prevWS, c :: rest =>
    if isPySpace c then
      if prevWS then collapseGo true rest
      else ' ' :: collapseGo true rest
    else c :: collapseGo false rest

/-- Remove trailing Python whitespace (the right half of `str.strip`). -/
def rstripL : List Char → List Char
  | [] => []
  | c :: rest =>
    match rstripL rest with
    | [] => if isPySpace c then [] else [c]
    | d :: ds => c :: d :: ds

/-- Python `str.strip`: drop leading and trailing whitespace. -/
def stripList (l : List Char) : List Char :=
  rstripL (l.dropWhile isPySpace)

/-- Embedding of clean_text (scanner.py lines 129-139): guard on falsy input, remove the
characters outside the allow-set, collapse whitespace runs to a single
space, and strip. -/
def clean_text (s : String) : String :=
  if s.data = [] then ""
  else String.mk (stripList (collapseGo false (s.data.filter allowedChar)))

/-! ### Auxiliary facts about the normalizer -/

/-- No two adjacent whitespace characters. -/
def noTwoWS : List Char → Prop
  | [] => True
  | [_] => True
  | a :: b :: rest => ¬(isPySpace a = true ∧ isPySpace b = true) ∧ noTwoWS (b :: rest)

/-- The head, when present, is not whitespace. -/
def headNotWS : List Char → Prop
  | [] => True
  | c :: _ => isPySpace c = false

/-- The last element, when present, is not whitespace. -/
def lastNotWS : List Char → Prop
  | [] => True
  | [c] => isPySpace c = false
  | _ :: rest => lastNotWS rest

theorem noTwoWS_tail {a : Char} {l : List Char} (h : noTwoWS (a :: l)) : noTwoWS l := by
  cases l with
  | nil => trivial
  | cons b rest => exact h.2

theorem noTwoWS_cons_of_head {a : Char} {l : List Char}
    (ha : isPySpace a = false) (h : noTwoWS l) : noTwoWS (a :: l) := by
  cases l with
  | nil => trivial
  | cons b rest => exact ⟨fun hc => by simp [ha] at hc, h⟩

theorem noTwoWS_cons_of_next {a : Char} {l : List Char}
    (hl : headNotWS l) (h : noTwoWS l) : noTwoWS (a :: l) := by
  cases l with
  | nil => trivial
  | cons b rest => exact ⟨fun hc => by simp [headNotWS] at hl; simp [hl] at hc, h⟩

theorem collapseGo_cons (b : Bool) (a : Char) (rest : List Char) :
    collapseGo b (a :: rest) =
      if isPySpace a then
        (if b then collapseGo true rest else ' ' :: collapseGo true rest)
      else a :: collapseGo false rest := rfl

theorem mem_collapseGo {c : Char} : ∀ (l : List Char) (b : Bool),
    c ∈ collapseGo b l → c = ' ' ∨ (c ∈ l ∧ isPySpace c = false) := by
  intro l
  induction l with
  | nil => intro b h; simp [collapseGo] at h
  | cons a rest ih =>
    intro b h
    rw [collapseGo_cons] at h
    by_cases ha : isPySpace a
    · rw [if_pos ha] at h
      cases b with
      | true =>
        rcases ih true (by simpa using h) with h1 | ⟨h1, h2⟩
        · exact Or.inl h1
        · exact Or.inr ⟨List.mem_cons_of_mem _ h1, h2⟩
      | false =>
        simp only [if_neg (by simp : ¬(false = true)), List.mem_cons] at h
        rcases h with h | h
        · exact Or.inl h
        · rcases ih true h with h1 | ⟨h1, h2⟩
          · exact Or.inl h1
          · exact Or.inr ⟨List.mem_cons_of_mem _ h1, h2⟩
    · rw [if_neg ha] at h
      rcases List.mem_cons.mp h with h | h
      · subst h
        exact Or.inr ⟨List.mem_cons_self _ _, by simpa using ha⟩
      · rcases ih false h with h1 | ⟨h1, h2⟩
        · exact Or.inl h1
        · exact Or.inr ⟨List.mem_cons_of_mem _ h1, h2⟩

theorem headNotWS_collapseGo_true : ∀ l : List Char, headNotWS (collapseGo true l) := by
  intro l
  induction l with
  | nil => trivial
  | cons a rest ih =>
    rw [collapseGo_cons]
    by_cases ha : isPySpace a
    · simpa [ha] using ih
    · rw [if_neg ha]
      simpa [headNotWS] using ha

theorem noTwoWS_collapseGo : ∀ (l : List Char) (b : Bool), noTwoWS (collapseGo b l) := by
  intro l
  induction l with
  | nil => intro b; trivial
  | cons a rest ih =>
    intro b
    rw [collapseGo_cons]
    by_cases ha : isPySpace a
    · rw [if_pos ha]
      cases b with
      | true => simpa using ih true
      | false =>
        simp only [if_neg (by simp : ¬(false = true))]
        exact noTwoWS_cons_of_next (headNotWS_collapseGo_true rest) (ih true)
    · rw [if_neg ha]
      exact noTwoWS_cons_of_head (by simpa using ha) (ih false)

theorem collapseGo_fix : ∀ l : List Char,
    (∀ c ∈ l, isPySpace c = true → c = ' ') → noTwoWS l →
    collapseGo false l = l ∧ (headNotWS l → collapseGo true l = l) := by
  intro l
  induction l with
  | nil => intro _ _; exact ⟨rfl, fun _ => rfl⟩
  | cons a rest ih =>
    intro hws h2
    have ih2 := ih (fun c hc => hws c (List.mem_cons_of_mem _ hc)) (noTwoWS_tail h2)
    by_cases ha : isPySpace a
    · have haSp : a = ' ' := hws a (List.mem_cons_self _ _) ha
      have hrest : headNotWS rest := by
        cases rest with
        | nil => trivial
        | cons b rs =>
          have hpair := h2.1
          simp only [headNotWS]
          by_cases hb : isPySpace b = true
          · exact absurd ⟨ha, hb⟩ hpair
          · simpa using hb
      constructor
      · rw [collapseGo_cons, if_pos ha, if_neg (by simp : ¬(false = true))]
        rw [ih2.2 hrest, haSp]
      · intro hh
        simp only [headNotWS] at hh
        rw [ha] at hh
        cases hh
    · constructor
      · rw [collapseGo_cons, if_neg ha, ih2.1]
      · intro _
        rw [collapseGo_cons, if_neg ha, ih2.1]

theorem rstripL_cons (a : Char) (rest : List Char) :
    rstripL (a :: rest) =
      match rstripL rest with
      | [] => if isPySpace a then [] else [a]
      | d :: ds => a :: d :: ds := rfl

theorem mem_rstripL {c : Char} : ∀ l : List Char, c ∈ rstripL l → c ∈ l := by
  intro l
  induction l with
  | nil => intro h; simp [rstripL] at h
  | cons a rest ih =>
    intro h
    rw [rstripL_cons] at h
    rcases hr : rstripL rest with _ | ⟨d, ds⟩
    · rw [hr] at h
      by_cases ha : isPySpace a
      · simp [ha] at h
      · simp only [if_neg ha, List.mem_singleton] at h
        subst h; exact List.mem_cons_self _ _
    · rw [hr] at h
      rcases List.mem_cons.mp h with h | h
      · subst h; exact List.mem_cons_self _ _
      · exact List.mem_cons_of_mem _ (ih (hr ▸ h))

theorem rstripL_head : ∀ (l : List Char) (d : Char) (ds : List Char),
    rstripL l = d :: ds → ∃ t, l = d :: t := by
  intro l
  cases l with
  | nil => intro d ds h; simp [rstripL] at h
  | cons a rest =>
    intro d ds h
    rw [rstripL_cons] at h
    rcases hr : rstripL rest with _ | ⟨e, es⟩
    · rw [hr] at h
      by_cases ha : isPySpace a
      · simp [ha] at h
      · rw [if_neg ha] at h
        have had : a = d := (List.cons.injEq _ _ _ _ ▸ h).1
        exact ⟨rest, by rw [had]⟩
    · rw [hr] at h
      have had : a = d := (List.cons.injEq _ _ _ _ ▸ h).1
      exact ⟨rest, by rw [had]⟩

theorem noTwoWS_rstripL : ∀ l : List Char, noTwoWS l → noTwoWS (rstripL l) := by
  intro l
  induction l with
  | nil => intro _; trivial
  | cons a rest ih =>
    intro h
    rw [rstripL_cons]
    rcases hr : rstripL rest with _ | ⟨d, ds⟩
    · by_cases ha : isPySpace a
      · rw [if_pos ha]; trivial
      · rw [if_neg ha]; trivial
    · have hrest := ih (noTwoWS_tail h)
      rw [hr] at hrest
      obtain ⟨t, ht⟩ := rstripL_head rest d ds hr
      refine ⟨?_, hrest⟩
      intro hc
      rw [ht] at h
      exact h.1 hc

theorem headNotWS_rstripL {l : List Char} (h : headNotWS l) : headNotWS (rstripL l) := by
  rcases hr : rstripL l with _ | ⟨d, ds⟩
  · trivial
  · obtain ⟨t, ht⟩ := rstripL_head l d ds hr
    rw [ht] at h
    exact h

theorem lastNotWS_rstripL : ∀ l : List Char, lastNotWS (rstripL l) := by
  intro l
  induction l with
  | nil => trivial
  | cons a rest ih =>
    rw [rstripL_cons]
    rcases hr : rstripL rest with _ | ⟨d, ds⟩
    · by_cases ha : isPySpace a
      · rw [if_pos ha]; trivial
      · rw [if_neg ha]
        simpa [lastNotWS] using ha
    · rw [hr] at ih
      exact ih

theorem rstripL_fix : ∀ l : List Char, lastNotWS l → rstripL l = l := by
  intro l
  induction l with
  | nil => intro _; rfl
  | cons a rest ih =>
    intro h
    cases rest with
    | nil =>
      simp only [lastNotWS] at h
      simp [rstripL, h]
    | cons b rs =>
      have hr : rstripL (b :: rs) = b :: rs := ih h
      rw [rstripL_cons, hr]

theorem mem_dropWhile {c : Char} {p : Char → Bool} :
    ∀ l : List Char, c ∈ l.dropWhile p → c ∈ l
  | [], h => by simp [List.dropWhile] at h
  | a :: rest, h => by
    by_cases ha : p a
    · rw [List.dropWhile_cons_of_pos ha] at h
      exact List.mem_cons_of_mem _ (mem_dropWhile rest h)
    · rw [List.dropWhile_cons_of_neg ha] at h
      exact h

theorem noTwoWS_dropWhile {p : Char → Bool} :
    ∀ l : List Char, noTwoWS l → noTwoWS (l.dropWhile p)
  | [], _ => trivial
  | a :: rest, h => by
    by_cases ha : p a
    · rw [List.dropWhile_cons_of_pos ha]
      exact noTwoWS_dropWhile rest (noTwoWS_tail h)
    · rw [List.dropWhile_cons_of_neg ha]
      exact h

theorem headNotWS_dropWhile : ∀ l : List Char, headNotWS (l.dropWhile isPySpace)
  | [] => trivial
  | a :: rest => by
    by_cases ha : isPySpace a
    · rw [List.dropWhile_cons_of_pos ha]
      exact headNotWS_dropWhile rest
    · rw [List.dropWhile_cons_of_neg ha]
      simpa [headNotWS] using ha

theorem dropWhile_fix {l : List Char} (h : headNotWS l) :
    l.dropWhile isPySpace = l := by
  cases l with
  | nil => rfl
  | cons a rest =>
    simp only [headNotWS] at h
    exact List.dropWhile_cons_of_neg (by simp [h])

theorem mem_stripList {c : Char} {l : List Char} (h : c ∈ stripList l) : c ∈ l :=
  mem_dropWhile l (mem_rstripL _ h)

theorem stripList_fix {l : List Char} (h1 : headNotWS l) (h2 : lastNotWS l) :
    stripList l = l := by
  unfold stripList
  rw [dropWhile_fix h1]
  exact rstripL_fix l h2

theorem headNotWS_stripList (l : List Char) : headNotWS (stripList l) :=
  headNotWS_rstripL (headNotWS_dropWhile l)

theorem lastNotWS_stripList (l : List Char) : lastNotWS (stripList l) :=
  lastNotWS_rstripL _

theorem noTwoWS_stripList {l : List Char} (h : noTwoWS l) : noTwoWS (stripList l) :=
  noTwoWS_rstripL _ (noTwoWS_dropWhile l h)

/-- C7 helper: the canonical shape of the normalizer output. -/
theorem clean_core_fix (l : List Char)
    (hallow : ∀ c ∈ l, allowedChar c = true)
    (hsp : ∀ c ∈ l, isPySpace c = true → c = ' ')
    (h2 : noTwoWS l) (hh : headNotWS l) (hl : lastNotWS l) :
    stripList (collapseGo false (l.filter allowedChar)) = l := by
  rw [List.filter_eq_self.mpr hallow]
  rw [(collapseGo_fix l hsp h2).1]
  exact stripList_fix hh hl

/-- C7: the Text Normalizer is idempotent. -/
theorem clean_text_idempotent (s : String) :
    clean_text (clean_text s) = clean_text s := by
  by_cases hs : s.data = []
  · simp [clean_text, hs]
  · have h1 : clean_text s =
        String.mk (stripList (collapseGo false (s.data.filter allowedChar))) := by
      simp [clean_text, hs]
    set o := stripList (collapseGo false (s.data.filter allowedChar)) with ho
    by_cases hoe : o = []
    · rw [h1, hoe]
      have : clean_text (String.mk ([] : List Char)) = String.mk ([] : List Char) := by
        simp [clean_text]
      exact this
    · rw [h1]
      have hdata : (String.mk o).data = o := rfl
      have hallow : ∀ c ∈ o, allowedChar c = true := by
        intro c hc
        have hc2 := mem_stripList hc
        rcases mem_collapseGo _ false hc2 with h | ⟨h, _⟩
        · subst h; simp [allowedChar, isPySpace]
        · exact List.of_mem_filter h
      have hsp : ∀ c ∈ o, isPySpace c = true → c = ' ' := by
        intro c hc hspc
        have hc2 := mem_stripList hc
        rcases mem_collapseGo _ false hc2 with h | ⟨_, h2⟩
        · exact h
        · rw [hspc] at h2; cases h2
      have h2 : noTwoWS o := noTwoWS_stripList (noTwoWS_collapseGo _ false)
      have hh : headNotWS o := headNotWS_stripList _
      have hl : lastNotWS o := lastNotWS_stripList _
      show clean_text (String.mk o) = String.mk o
      unfold clean_text
      rw [hdata, if_neg hoe]
      rw [clean_core_fix o hallow hsp h2 hh hl]

/-! ### Confidence Scorer (scan_text_with_confidence) -/

/-- The detection filter of `scan_text_with_confidence` (scanner.py lines
49-52): keep the (word, confidence) pairs whose word is truthy after strip
and whose confidence is strictly positive. -/
def valid_detections (data : List (String × ℚ)) : List (String × ℚ) :=
  data.filter (fun wc => !(stripList wc.1.data).isEmpty && decide (0 < wc.2))

/-- Embedding of scan_text_with_confidence (scanner.py lines 38-70).  The OCR engine is
external; its outcome is passed in as an Except value, error meaning the
engine call raised, which the except branch (lines 68-70) turns into
("", 0.0).  On success the code filters the detections, returns ("", 0.0)
when nothing survives, and otherwise the words joined by single spaces
together with the length-weighted mean confidence. -/
def scan_text_with_confidence (r : Except String (List (String × ℚ))) : String × ℚ :=
  match r with
  | .error _ => ("", 0)
  | .ok data =>
    if valid_detections data = [] then ("", 0)
    else if ((valid_detections data).map (fun wc => (wc.1.length : ℚ))).sum = 0 then
      ("", 0)
    else
      (String.intercalate " " ((valid_detections data).map Prod.fst),
        ((valid_detections data).map (fun wc => (wc.1.length : ℚ) * wc.2)).sum /
          ((valid_detections data).map (fun wc => (wc.1.length : ℚ))).sum)

/-- The Confidence Scorer contract exactly as the specification words it
(spec 4.3): filter out entries whose trimmed text is empty or whose
confidence is ≤ 0; if the filtered set is empty return ("", 0.0); otherwise
the score is the sum of length-times-confidence divided by the sum of
lengths, and the text is the filtered words joined by single spaces. -/
def kept_entries (data : List (String × ℚ)) : List (String × ℚ) :=
  data.filter (fun wc => decide (stripList wc.1.data ≠ []) && !decide (wc.2 ≤ 0))

def scorer_spec (data : List (String × ℚ)) : String × ℚ :=
  if kept_entries data = [] then ("", 0)
  else
    (String.intercalate " " ((kept_entries data).map Prod.fst),
      ((kept_entries data).map (fun wc => (wc.1.length : ℚ) * wc.2)).sum /
        ((kept_entries data).map (fun wc => (wc.1.length : ℚ))).sum)

theorem valid_detections_eq_kept (data : List (String × ℚ)) :
    valid_detections data = kept_entries data := by
  unfold valid_detections kept_entries
  apply List.filter_congr
  intro wc _
  congr 1
  · cases h : stripList wc.1.data <;> simp [h]
  · by_cases h : 0 < wc.2
    · simp [h, not_le.mpr h]
    · simp [h, not_lt.mp h]

theorem stripList_nil : stripList ([] : List Char) = [] := rfl

theorem total_chars_pos {data : List (String × ℚ)}
    (h : valid_detections data ≠ []) :
    0 < ((valid_detections data).map (fun wc => (wc.1.length : ℚ))).sum := by
  apply List.sum_pos
  · intro q hq
    rcases List.mem_map.mp hq with ⟨wc, hwc, hq2⟩
    have hkeep := List.of_mem_filter hwc
    have hstrip : (stripList wc.1.data).isEmpty = false := by
      cases hb : (stripList wc.1.data).isEmpty
      · rfl
      · rw [hb] at hkeep; simp at hkeep
    have hne : wc.1.data ≠ [] := by
      intro hnil
      rw [hnil, stripList_nil] at hstrip
      simp [List.isEmpty] at hstrip
    have hlen : 0 < wc.1.length := by
      have hlen0 : wc.1.data.length ≠ 0 := fun hc => hne (List.length_eq_zero.mp hc)
      exact Nat.pos_of_ne_zero hlen0
    rw [← hq2]
    exact_mod_cast hlen
  · intro hc
    exact h (List.map_eq_nil_iff.mp hc)

/-- C3: `scan_text_with_confidence` implements the Confidence Scorer contract:
blank or non-positive entries are dropped, an empty remainder yields
("", 0.0), and otherwise the score is the word-length-weighted mean of the
confidences with the surviving words joined by single spaces in order.  On
[("Hi", 90), ("Conference", 50)] it yields 680/12, not the unweighted
mean 70. -/
theorem scan_ok (data : List (String × ℚ)) :
    scan_text_with_confidence (Except.ok data) =
      if valid_detections data = [] then ("", 0)
      else if ((valid_detections data).map (fun wc => (wc.1.length : ℚ))).sum = 0 then
        ("", 0)
      else
        (String.intercalate " " ((valid_detections data).map Prod.fst),
          ((valid_detections data).map (fun wc => (wc.1.length : ℚ) * wc.2)).sum /
            ((valid_detections data).map (fun wc => (wc.1.length : ℚ))).sum) := rfl

theorem scan_confidence_weighted_contract :
    (∀ data : List (String × ℚ),
        scan_text_with_confidence (Except.ok data) = scorer_spec data) ∧
    scan_text_with_confidence (Except.ok [("Hi", 90), ("Conference", 50)]) =
      ("Hi Conference", 680 / 12) ∧
    (680 / 12 : ℚ) ≠ 70 := by
  have h1 : ("Hi" : String).length = 2 := rfl
  have h2 : ("Conference" : String).length = 10 := rfl
  have hvd : valid_detections [(("Hi" : String), (90 : ℚ)), ("Conference", 50)] =
      [("Hi", 90), ("Conference", 50)] := by
    apply List.filter_eq_self.mpr
    intro a ha
    rcases List.mem_cons.mp ha with h | h
    · subst h
      simp only [Bool.and_eq_true]
      refine ⟨by decide, ?_⟩
      rw [decide_eq_true_eq]
      norm_num
    · rcases List.mem_cons.mp h with h' | h'
      · subst h'
        simp only [Bool.and_eq_true]
        refine ⟨by decide, ?_⟩
        rw [decide_eq_true_eq]
        norm_num
      · simp at h'
  refine ⟨?_, ?_, by norm_num⟩
  · intro data
    rw [scan_ok]
    unfold scorer_spec
    by_cases hvd0 : valid_detections data = []
    · have hk : kept_entries data = [] := valid_detections_eq_kept data ▸ hvd0
      rw [if_pos hvd0, if_pos hk]
    · have hk : kept_entries data ≠ [] := valid_detections_eq_kept data ▸ hvd0
      rw [if_neg hvd0, if_neg hk, if_neg (ne_of_gt (total_chars_pos hvd0))]
      rw [valid_detections_eq_kept]
  · rw [scan_ok, hvd]
    rw [if_neg (by simp)]
    have hsum : (([(("Hi" : String), (90 : ℚ)), ("Conference", 50)]).map
        (fun wc => (wc.1.length : ℚ))).sum = 12 := by
      simp only [List.map_cons, List.map_nil, List.sum_cons, List.sum_nil, h1, h2]
      norm_num
    rw [if_neg (by rw [hsum]; norm_num)]
    rw [Prod.mk.injEq]
    constructor
    · decide
    · rw [hsum]
      simp only [List.map_cons, List.map_nil, List.sum_cons, List.sum_nil, h1, h2]
      norm_num

/-! ### Pipeline Selector (find_best_preprocessing) -/

/-- The selection loop of `find_best_preprocessing` (scanner.py lines
97-107) over the per-pipeline candidates (pipeline name, recognized text,
confidence).  A candidate replaces the running best only when its
confidence is strictly greater. -/
def find_best_loop :
    List (String × String × ℚ) → String × ℚ × String → String × ℚ × String
  | [], best => best
  | (nm, txt, conf) :: rest, (bt, bc, bn) =>
    if conf > bc then find_best_loop rest (txt, conf, nm)
    else find_best_loop rest (bt, bc, bn)

/-- Embedding of find_best_preprocessing (scanner.py lines 87-119) restricted to its
selection behaviour: the loop is started from the initial best
("", 0.0, "") and its final value (best_text, best_confidence,
best_pipeline_name) is returned. -/
def find_best_preprocessing (outcomes : List (String × String × ℚ)) :
    String × ℚ × String :=
  find_best_loop outcomes ("", 0, "")

/-- The selector composed with the per-pipeline recognition
outcomes: each registered pipeline contributes the scan of its (possibly
failed) recognition result, exactly as lines 97-99 do. -/
def find_best_from (results : List (String × Except String (List (String × ℚ)))) :
    String × ℚ × String :=
  find_best_preprocessing (results.map (fun p => (p.1, scan_text_with_confidence p.2)))

theorem find_best_loop_const :
    ∀ (l : List (String × String × ℚ)) (bt : String) (bc : ℚ) (bn : String),
      (∀ x ∈ l, x.2.2 ≤ bc) → find_best_loop l (bt, bc, bn) = (bt, bc, bn) := by
  intro l
  induction l with
  | nil => intro bt bc bn _; rfl
  | cons p rest ih =>
    intro bt bc bn h
    rcases p with ⟨nm, txt, conf⟩
    have hle : conf ≤ bc := h _ (List.mem_cons_self _ _)
    show (if conf > bc then find_best_loop rest (txt, conf, nm)
      else find_best_loop rest (bt, bc, bn)) = (bt, bc, bn)
    rw [if_neg (not_lt.mpr hle)]
    exact ih bt bc bn (fun x hx => h x (List.mem_cons_of_mem _ hx))

theorem find_best_loop_first_max :
    ∀ (pre : List (String × String × ℚ)) (c : String × String × ℚ)
      (post : List (String × String × ℚ)) (bt : String) (bc : ℚ) (bn : String),
      bc < c.2.2 → (∀ x ∈ pre, x.2.2 < c.2.2) → (∀ x ∈ post, x.2.2 ≤ c.2.2) →
      find_best_loop (pre ++ c :: post) (bt, bc, bn) = (c.2.1, c.2.2, c.1) := by
  intro pre
  induction pre with
  | nil =>
    intro c post bt bc bn hbc _ hpost
    rcases c with ⟨nm, txt, conf⟩
    show (if conf > bc then find_best_loop post (txt, conf, nm)
      else find_best_loop post (bt, bc, bn)) = (txt, conf, nm)
    rw [if_pos hbc]
    exact find_best_loop_const post txt conf nm hpost
  | cons p ps ih =>
    intro c post bt bc bn hbc hpre hpost
    rcases p with ⟨nm, txt, conf⟩
    show (if conf > bc then find_best_loop (ps ++ c :: post) (txt, conf, nm)
      else find_best_loop (ps ++ c :: post) (bt, bc, bn)) = (c.2.1, c.2.2, c.1)
    have hlt : conf < c.2.2 := hpre _ (List.mem_cons_self _ _)
    by_cases hgt : conf > bc
    · rw [if_pos hgt]
      exact ih c post txt conf nm hlt
        (fun x hx => hpre x (List.mem_cons_of_mem _ hx)) hpost
    · rw [if_neg hgt]
      exact ih c post bt bc bn hbc
        (fun x hx => hpre x (List.mem_cons_of_mem _ hx)) hpost

/-- C4 counterexample: on the all-zero score assignment (achievable, since a
failed or empty recognition yields text "" and score 0.0) the selector
returns the initial sentinel whose pipeline-name component "" is not the
earliest-registered pipeline, so the claim as stated fails. -/
theorem find_best_all_zero_sentinel :
    find_best_preprocessing [("basic", "", 0), ("denoised", "", 0)] = ("", 0, "") ∧
    (("", 0, "") : String × ℚ × String) ≠ ("", 0, "basic") ∧
    (("", 0, "") : String × ℚ × String) ≠ ("", 0, "denoised") := by
  refine ⟨by decide, by decide, by decide⟩

/-- C4 (amended): whenever some pipeline scores strictly above 0.0, the
selector returns exactly the (text, score, name) of the earliest-registered
pipeline achieving the maximum score — a candidate replaces the best only on
a strictly greater score, so ties keep the earlier pipeline; when every
pipeline scores 0.0 the initial sentinel ("", 0.0, "") is returned
instead. -/
theorem find_best_earliest_max :
    (∀ (pre : List (String × String × ℚ)) (c : String × String × ℚ)
        (post : List (String × String × ℚ)),
        0 < c.2.2 → (∀ x ∈ pre, x.2.2 < c.2.2) → (∀ x ∈ post, x.2.2 ≤ c.2.2) →
        find_best_preprocessing (pre ++ c :: post) = (c.2.1, c.2.2, c.1)) ∧
    (∀ outcomes : List (String × String × ℚ),
        (∀ x ∈ outcomes, x.2.2 = 0) →
        find_best_preprocessing outcomes = ("", 0, "")) := by
  constructor
  · intro pre c post hpos hpre hpost
    exact find_best_loop_first_max pre c post "" 0 "" hpos hpre hpost
  · intro outcomes h
    exact find_best_loop_const outcomes "" 0 ""
      (fun x hx => le_of_eq (h x hx))

/-- C4 witness: a concrete tie between the second and third pipelines is
resolved toward the earlier one. -/
theorem find_best_earliest_max_witness :
    find_best_preprocessing
      [("basic", "a", 1), ("denoised", "b", 2), ("scaled_2x", "c", 2)] =
      ("b", 2, "denoised") :=
  find_best_earliest_max.1 [("basic", "a", 1)] ("denoised", "b", 2)
    [("scaled_2x", "c", 2)] (by norm_num) (by decide) (by decide)

/-- C5: if every registered pipeline fails (its recognition raised) or scores
0.0, the selector returns empty text and confidence 0.0 — the sentinel
triple — rather than any exceptional outcome, and a single failing pipeline
leaves the search over the remaining pipelines untouched. -/
theorem find_best_robust_all_fail :
    (∀ results : List (String × Except String (List (String × ℚ))),
        (∀ p ∈ results,
          (∃ e, p.2 = Except.error e) ∨ (scan_text_with_confidence p.2).2 = 0) →
        find_best_from results = ("", 0, "")) ∧
    (∀ (nm e : String) (rest : List (String × Except String (List (String × ℚ)))),
        find_best_from ((nm, Except.error e) :: rest) = find_best_from rest) := by
  have hloop : ∀ (results : List (String × Except String (List (String × ℚ)))),
      (∀ p ∈ results,
        (∃ e, p.2 = Except.error e) ∨ (scan_text_with_confidence p.2).2 = 0) →
      find_best_loop (results.map (fun p => (p.1, scan_text_with_confidence p.2)))
        ("", 0, "") = ("", 0, "") := by
    intro results h
    apply find_best_loop_const
    intro x hx
    rcases List.mem_map.mp hx with ⟨p, hp, hx2⟩
    have hzero : (scan_text_with_confidence p.2).2 = 0 := by
      rcases h p hp with ⟨e, he⟩ | h0
      · rw [he]; rfl
      · exact h0
    rw [← hx2]
    exact le_of_eq hzero
  constructor
  · intro results h
    exact hloop results h
  · intro nm e rest
    show find_best_loop ((nm, scan_text_with_confidence (Except.error e)) ::
        rest.map (fun p => (p.1, scan_text_with_confidence p.2))) ("", 0, "") = _
    show (if (0 : ℚ) > 0 then _ else _) = _
    rw [if_neg (lt_irrefl 0)]
    rfl

/-- C5 witness: with one raising pipeline and one empty recognition the
selector returns the zero-confidence empty-text result. -/
theorem find_best_robust_all_fail_witness :
    find_best_from [("basic", Except.error "tesseract fault"),
      ("denoised", Except.ok ([] : List (String × ℚ)))] = ("", 0, "") :=
  find_best_robust_all_fail.1 _ (by
    intro p hp
    rcases List.mem_cons.mp hp with h | h
    · subst h
      exact Or.inl ⟨"tesseract fault", rfl⟩
    · rcases List.mem_cons.mp h with h2 | h2
      · subst h2
        exact Or.inr rfl
      · simp at h2)

/-! ### Pipeline Executor (apply_preprocessing_pipeline)

Images are opaque pixel buffers; the numpy/OpenCV heap is modelled
explicitly so that aliasing and the copy-on-entry of the executor are
visible: a reference is an index into the heap list, and every OpenCV call
that produces an image allocates a fresh buffer at the end of the heap
(none of the calls used in scanner.py writes in place). -/

def Image : Type := List Int

instance : Inhabited Image := ⟨([] : List Int)⟩

abbrev Heap := List Image

/-- The external OpenCV primitives used by the executor, at their interface
boundary: each is a pure image-to-image function plus the mean-intensity
probe used by invert_if_dark. -/
structure CvOps where
  cvtGray : Image → Image
  otsu : Image → Image
  meanVal : Image → ℚ
  bnot : Image → Image
  resize2 : Image → Image
  resize3 : Image → Image
  denoise : Image → Image

/-- One iteration of the step loop of `apply_preprocessing_pipeline`
(scanner.py lines 14-30).  Every branch allocates the result of the OpenCV
call as a fresh buffer and rebinds the working reference; the
`gaussian_blur` branch raises a NameError because line 28 reads the
undefined variable `scaled`; a step name matching no branch of the
if/elif chain leaves the working reference unchanged (there is no else
branch). -/
def runStep (ops : CvOps) (h : Heap) (r : Nat) (step : String) :
    Except String (Heap × Nat) :=
  if step = "grayscale" then .ok (h ++ [ops.cvtGray (h.getD r default)], h.length)
  else if step = "otsu_threshold" then .ok (h ++ [ops.otsu (h.getD r default)], h.length)
  else if step = "invert_if_dark" then
    if ops.meanVal (h.getD r default) < 127 then
      .ok (h ++ [ops.bnot (h.getD r default)], h.length)
    else .ok (h, r)
  else if step = "scale_2x" then .ok (h ++ [ops.resize2 (h.getD r default)], h.length)
  else if step = "scale_3x" then .ok (h ++ [ops.resize3 (h.getD r default)], h.length)
  else if step = "gaussian_blur" then .error "NameError: name scaled is not defined"
  else if step = "denoise" then .ok (h ++ [ops.denoise (h.getD r default)], h.length)
  else .ok (h, r)

/-- The step loop folded over the pipeline; an exception anywhere makes the
whole invocation return None (lines 34-36). -/
def runSteps (ops : CvOps) : List String → Heap → Nat → Heap × Option Nat
  | [], h, r => (h, some r)
  | step :: rest, h, r =>
    match runStep ops h r step with
    | .error _ => (h, none)
    | .ok (h2, r2) => runSteps ops rest h2 r2

/-- Embedding of apply_preprocessing_pipeline (scanner.py lines 9-36): copy the input
image into a fresh buffer (line 13), then run every step on the working
reference; on an exception the function returns None. -/
def apply_preprocessing_pipeline (ops : CvOps) (h : Heap) (image : Nat)
    (pipeline : List String) : Heap × Option Nat :=
  runSteps ops pipeline (h ++ [h.getD image default]) h.length

theorem step_alloc {h h2 : Heap} {img : Image} {r r2 : Nat}
    (hok : (Except.ok (h ++ [img], h.length) : Except String (Heap × Nat)) =
      Except.ok (h2, r2)) :
    (∃ ext, h2 = h ++ ext) ∧ (r2 = r ∨ h.length ≤ r2) := by
  rw [Except.ok.injEq, Prod.mk.injEq] at hok
  exact ⟨⟨[img], hok.1.symm⟩, Or.inr (le_of_eq hok.2)⟩

theorem step_keep {h h2 : Heap} {r r2 : Nat}
    (hok : (Except.ok (h, r) : Except String (Heap × Nat)) = Except.ok (h2, r2)) :
    (∃ ext, h2 = h ++ ext) ∧ (r2 = r ∨ h.length ≤ r2) := by
  rw [Except.ok.injEq, Prod.mk.injEq] at hok
  exact ⟨⟨[], by rw [← hok.1, List.append_nil]⟩, Or.inl hok.2.symm⟩

theorem runStep_extends (ops : CvOps) (h : Heap) (r : Nat) (step : String) :
    ∀ h2 r2, runStep ops h r step = .ok (h2, r2) →
      (∃ ext, h2 = h ++ ext) ∧ (r2 = r ∨ h.length ≤ r2) := by
  intro h2 r2 hok
  unfold runStep at hok
  split_ifs at hok
  · exact step_alloc hok
  · exact step_alloc hok
  · exact step_alloc hok
  · exact step_keep hok
  · exact step_alloc hok
  · exact step_alloc hok
  · exact step_alloc hok
  · exact step_keep hok

theorem runSteps_cons (ops : CvOps) (step : String) (rest : List String)
    (h : Heap) (r : Nat) :
    runSteps ops (step :: rest) h r =
      match runStep ops h r step with
      | .error _ => (h, none)
      | .ok (h2, r2) => runSteps ops rest h2 r2 := rfl

theorem runSteps_extends (ops : CvOps) :
    ∀ (steps : List String) (h : Heap) (r : Nat),
      (∃ ext, (runSteps ops steps h r).1 = h ++ ext) ∧
      (∀ r2, (runSteps ops steps h r).2 = some r2 → r2 = r ∨ h.length ≤ r2) := by
  intro steps
  induction steps with
  | nil =>
    intro h r
    exact ⟨⟨[], (List.append_nil h).symm⟩,
      fun r2 hr2 => Or.inl (Option.some.inj hr2).symm⟩
  | cons step rest ih =>
    intro h r
    rw [runSteps_cons]
    rcases hstep : runStep ops h r step with e | ⟨h2, r2⟩
    · exact ⟨⟨[], (List.append_nil h).symm⟩, fun r3 hr3 => Option.noConfusion hr3⟩
    · show (∃ ext, (runSteps ops rest h2 r2).1 = h ++ ext) ∧
        (∀ r3, (runSteps ops rest h2 r2).2 = some r3 → r3 = r ∨ h.length ≤ r3)
      have hext := runStep_extends ops h r step h2 r2 hstep
      rcases hext with ⟨⟨ext1, he1⟩, hr1⟩
      rcases ih h2 r2 with ⟨⟨ext2, he2⟩, hrec⟩
      constructor
      · refine ⟨ext1 ++ ext2, ?_⟩
        rw [he2, he1, List.append_assoc]
      · intro r3 hr3
        rcases hrec r3 hr3 with hA | hB
        · subst hA
          rcases hr1 with hr1 | hr1
          · exact Or.inl hr1
          · exact Or.inr hr1
        · refine Or.inr (le_trans ?_ hB)
          rw [he1, List.length_append]
          exact Nat.le_add_right _ _

/-- C10: the executor never touches the buffer the caller passed in: every
pre-existing heap cell is unchanged after the call (the transforms operate
on the copy allocated on entry), and the returned reference, when the
pipeline succeeds, is always a fresh buffer, never a buffer the caller already held. -/
theorem apply_preprocessing_pipeline_frame (ops : CvOps) (h : Heap) (image : Nat)
    (pipeline : List String) :
    (∀ i, i < h.length →
      (apply_preprocessing_pipeline ops h image pipeline).1[i]? = h[i]?) ∧
    (∀ r2, (apply_preprocessing_pipeline ops h image pipeline).2 = some r2 →
      h.length ≤ r2) := by
  unfold apply_preprocessing_pipeline
  rcases runSteps_extends ops pipeline (h ++ [h.getD image default]) h.length with
    ⟨⟨ext, hext⟩, href⟩
  constructor
  · intro i hi
    rw [hext, List.append_assoc]
    exact List.getElem?_append_left hi
  · intro r2 hr2
    rcases href r2 hr2 with hA | hB
    · exact le_of_eq hA.symm
    · refine le_trans ?_ hB
      rw [List.length_append]
      exact Nat.le_add_right _ _

/-- C10 witness: a concrete one-cell heap with a grayscale step leaves the
buffer of the caller unchanged and returns a fresh reference. -/
theorem apply_preprocessing_pipeline_frame_witness :
    ((apply_preprocessing_pipeline
        ⟨id, id, fun _ => 0, id, id, id, id⟩ [[(5 : Int)]] 0 ["grayscale"]).1[0]? =
      some [(5 : Int)]) ∧
    (1 : Nat) ≤ 2 := by
  constructor
  · rw [(apply_preprocessing_pipeline_frame
      ⟨id, id, fun _ => 0, id, id, id, id⟩ [[(5 : Int)]] 0 ["grayscale"]).1 0 (by decide)]
    rfl
  · exact (apply_preprocessing_pipeline_frame
      ⟨id, id, fun _ => 0, id, id, id, id⟩ [[(5 : Int)]] 0 ["grayscale"]).2 2 rfl

/-- C2: the claim fails on the code: the step loop of
`apply_preprocessing_pipeline` has no else branch, so a step identifier
outside the implemented set — in particular the registry steps
`adaptive_threshold` and `morphology_close` — is silently skipped: the run
is identical to the run without that step and still succeeds, instead of
failing fast. -/
theorem apply_preprocessing_pipeline_skips_unknown (ops : CvOps) (h : Heap) (r : Nat) :
    apply_preprocessing_pipeline ops h r ["grayscale", "adaptive_threshold", "scale_2x"] =
      apply_preprocessing_pipeline ops h r ["grayscale", "scale_2x"] ∧
    apply_preprocessing_pipeline ops h r
        ["grayscale", "otsu_threshold", "invert_if_dark", "morphology_close", "scale_2x"] =
      apply_preprocessing_pipeline ops h r
        ["grayscale", "otsu_threshold", "invert_if_dark", "scale_2x"] ∧
    (apply_preprocessing_pipeline ops h r
        ["grayscale", "adaptive_threshold", "scale_2x"]).2.isSome = true := by
  refine ⟨rfl, ?_, ?_⟩
  · unfold apply_preprocessing_pipeline runSteps runStep
    rfl
  · rfl

/-! ### Date Extractor (filter_dates) -/

theorem dropWhile_len_le (p : Char → Bool) :
    ∀ l : List Char, (l.dropWhile p).length ≤ l.length := by
  intro l
  induction l with
  | nil => exact le_refl _
  | cons a rest ih =>
    by_cases hp : p a
    · rw [List.dropWhile_cons_of_pos hp]
      exact le_trans ih (Nat.le_succ _)
    · simp [List.dropWhile_cons_of_neg hp]

/-- Left-to-right non-overlapping substitution of the pattern
hash-digits-whitespace by nothing (scanner.py line 169): a hash sign
directly followed by at least one digit is removed together with the digit
run and any following whitespace.  The scanner recurses on strict suffixes,
so a fuel of one more than the length is never exhausted. -/
def subHashF : Nat → List Char → List Char
  | 0, _ => []
  | _, [] => []
  | fuel + 1, c :: rest =>
    if c = '#' ∧ rest.head?.any Char.isDigit = true then
      subHashF fuel ((rest.dropWhile Char.isDigit).dropWhile isPySpace)
    else c :: subHashF fuel rest

def subHash (l : List Char) : List Char := subHashF (l.length + 1) l

/-- Left-to-right non-overlapping substitution of the pattern
whitespace-@-whitespace by a single space (scanner.py line 170).  A match
starts at a position exactly when skipping whitespace from it reaches an @;
no position strictly inside a whitespace run that does not lead to an @ can
start a match, so such runs are copied verbatim.  Fuel as in subHashF. -/
def subAtF : Nat → List Char → List Char
  | 0, _ => []
  | _, [] => []
  | fuel + 1, c :: rest =>
    if c = '@' then ' ' :: subAtF fuel (rest.dropWhile isPySpace)
    else if isPySpace c then
      match rest.dropWhile isPySpace with
      | '@' :: r3 => ' ' :: subAtF fuel (r3.dropWhile isPySpace)
      | _ => (c :: rest).takeWhile isPySpace ++ subAtF fuel (rest.dropWhile isPySpace)
    else c :: subAtF fuel rest

def subAt (l : List Char) : List Char := subAtF (l.length + 1) l

def isPrefixList : List Char → List Char → Bool
  | [], _ => true
  | _ :: _, [] => false
  | a :: as, b :: bs => a = b && isPrefixList as bs

/-- Substring occurrence test for concrete engine models. -/
def containsSub (needle : List Char) : List Char → Bool
  | [] => isPrefixList needle []
  | c :: rest => isPrefixList needle (c :: rest) || containsSub needle rest

/-- The date-resolution engine boundary (spec section 6): the search call
takes the bias setting (true = PREFER_DATES_FROM future) and returns the
ordered (matched substring, resolved date) pairs, or nothing; the secondary
parse call resolves one substring under the engine default settings —
scanner.py line 176 passes no settings to it.  Dates are integer day
numbers. -/
structure DateEngine where
  search_dates : Bool → String → Option (List (String × Int))
  parse : String → Option Int

/-- The possible returns of filter_dates: Python None (falsy input, or the
parse call returning None), a parsed date, or the empty list produced by
the except branch. -/
inductive PyDateRet where
  | noneV : PyDateRet
  | someDate : Int → PyDateRet
  | emptyListV : PyDateRet
deriving DecidableEq

/-- The pre-filtering of filter_dates (scanner.py lines 169-170). -/
def date_prefilter (s : String) : String :=
  String.mk (subAt (subHash s.data))

/-- Embedding of filter_dates (scanner.py lines 165-180): guard falsy input, pre-filter
the text, search it with the future bias, then resolve the first matched
substring with the settings-free parse call; a missing search result (None
or an empty list) raises at the subscript and the except branch
returns []. -/
def filter_dates (eng : DateEngine) (s : String) : PyDateRet :=
  if s = "" then .noneV
  else
    match eng.search_dates true (date_prefilter s) with
    | none => .emptyListV
    | some [] => .emptyListV
    | some ((sub, _) :: _) =>
      match eng.parse sub with
      | none => .noneV
      | some d => .someDate d

/-- Modelled from the spec: the external dateparser engine (excluded from
the core, specified only at its section 6 boundary), restricted to texts
containing the weekday token Friday.  Day 0 is a Monday; the future-biased
search resolves a weekday to its nearest strictly-future occurrence
(glossary: future-biased date resolution), while the default-settings parse
resolves within the current week, which may lie in the past. -/
def curFri (today : Int) : Int := today - today % 7 + 4

def nextFri (today : Int) : Int :=
  if today < curFri today then curFri today else curFri today + 7

def weekdayEngine (today : Int) : DateEngine where
  search_dates := fun preferFuture text =>
    if containsSub ("Friday".data) text.data then
      some [("Friday", if preferFuture then nextFri today else curFri today)]
    else none
  parse := fun sub => if sub = "Friday" then some (curFri today) else none

/-- C1 fails on the code: filter_dates searches with the future bias but then
re-resolves the first matched substring through the settings-free parse
call (line 176), discarding the future date the search already produced.
With the parse time on a Saturday (day 5), the ambiguous weekday Friday in
the end-to-end example resolves to day 4 — the Friday already past — even
though the engine search handed back the nearest future Friday, day 11. -/
theorem filter_dates_drops_future_bias :
    filter_dates (weekdayEngine 5) "Team Conference at Main Hall 2 on Friday" =
      .someDate 4 ∧
    (weekdayEngine 5).search_dates true
        (date_prefilter "Team Conference at Main Hall 2 on Friday") =
      some [("Friday", 11)] ∧
    (4 : Int) < 5 ∧ nextFri 5 = 11 ∧ (4 : Int) ≠ 11 := by
  refine ⟨by decide, by decide, by decide, by decide, by decide⟩

/-- Modelled from the spec: an engine at the section 6 boundary that
resolves the token 2024 as a year (day number 1000) whenever the text shows
it, and otherwise resolves the token March 5 (day number 2000); its parse
call agrees on single substrings. -/
def hashEngine : DateEngine where
  search_dates := fun _ text =>
    if containsSub ("2024".data) text.data then some [("2024", 1000)]
    else if containsSub ("March 5".data) text.data then some [("March 5", 2000)]
    else none
  parse := fun sub =>
    if sub = "2024" then some 1000
    else if sub = "March 5" then some 2000
    else none

/-- Modelled from the spec: the same engine as hashEngine except that it
refuses any text still containing a hash sign; it agrees with hashEngine on
every pre-filtered text. -/
def hashGuardEngine : DateEngine where
  search_dates := fun b text =>
    if containsSub ("#".data) text.data then none
    else hashEngine.search_dates b text
  parse := hashEngine.parse

/-- C6: filter_dates hands the engine only the pre-filtered text — the result
depends on an engine solely through its values on that text — and the
pre-filter removes hash-digit runs and collapses whitespace-wrapped @ signs
into a single space; on the example the token 2024 is gone from the engine
input, so the date resolves from March 5 and not from the hashtag year. -/
theorem filter_dates_prefilters_hashtags :
    (∀ (e1 e2 : DateEngine) (s : String),
        (∀ b, e1.search_dates b (date_prefilter s) =
          e2.search_dates b (date_prefilter s)) →
        (∀ sub, e1.parse sub = e2.parse sub) →
        filter_dates e1 s = filter_dates e2 s) ∧
    date_prefilter "Join #2024 event on March 5" = "Join event on March 5" ∧
    containsSub ("2024".data)
      (date_prefilter "Join #2024 event on March 5").data = false ∧
    date_prefilter "Meet @  5pm #123" = "Meet 5pm " ∧
    filter_dates hashEngine "Join #2024 event on March 5" = .someDate 2000 ∧
    filter_dates hashEngine "see you in 2024" = .someDate 1000 := by
  refine ⟨?_, by decide, by decide, by decide, by decide, by decide⟩
  intro e1 e2 s h1 h2
  unfold filter_dates
  by_cases hs : s = ""
  · rw [if_pos hs, if_pos hs]
  · rw [if_neg hs, if_neg hs, h1 true]
    rcases e2.search_dates true (date_prefilter s) with _ | ⟨_ | ⟨⟨sub, d⟩, rest⟩⟩
    · rfl
    · rfl
    · show (match e1.parse sub with
        | none => PyDateRet.noneV
        | some d => PyDateRet.someDate d) =
        (match e2.parse sub with
        | none => PyDateRet.noneV
        | some d => PyDateRet.someDate d)
      rw [h2 sub]

/-- C6 witness: the guarded engine differs from hashEngine on raw hashtag
text but agrees on the pre-filtered text, so filter_dates cannot tell them
apart on the example. -/
theorem filter_dates_prefilters_hashtags_witness :
    filter_dates hashEngine "Join #2024 event on March 5" =
      filter_dates hashGuardEngine "Join #2024 event on March 5" :=
  filter_dates_prefilters_hashtags.1 hashEngine hashGuardEngine
    "Join #2024 event on March 5" (by intro b; cases b <;> decide) (fun sub => rfl)

/-! ### Location Extractor (filter_location) and Title Extractor (filter_info)

The two extractors scan with fixed regular expressions.  The patterns are
deterministic: every alternative keyword set has pairwise incompatible
literals (none a prefix of another, and at each text position at most one
can match), all quantifiers after the mandatory part can match empty, and a
greedy run never needs to backtrack, so Python re semantics (leftmost
match, greedy quantifiers, non-overlapping findall) reduce to the
run-splitting scanners below. -/

/-- Case-insensitive literal match: if the pattern is a prefix of the text
up to ASCII case, return the remaining text. -/
def dropCI : List Char → List Char → Option (List Char)
  | [], s => some s
  | _ :: _, [] => none
  | k :: ks, c :: cs => if k.toLower = c.toLower then dropCI ks cs else none

/-- Try the alternation keywords in order; on a hit return the matched text
characters (original case) and the rest. -/
def firstKwSplit (kws : List String) (s : List Char) : Option (List Char × List Char) :=
  match kws with
  | [] => none
  | k :: ks =>
    match dropCI k.data s with
    | some r => some (s.take k.data.length, r)
    | none => firstKwSplit ks s

/-- The optional venue-noun group (?:Hall|Room|Building), case-insensitive:
returns the matched text characters (possibly none) and the rest. -/
def matchHRB (s : List Char) : List Char × List Char :=
  if (dropCI ("Hall".data) s).isSome then (s.take 4, s.drop 4)
  else if (dropCI ("Room".data) s).isSome then (s.take 4, s.drop 4)
  else if (dropCI ("Building".data) s).isSome then (s.take 8, s.drop 8)
  else ([], s)

def location_keywords : List String :=
  ["at", "in", "on", "location", "venue", "place", "hall", "room", "@"]

/-- One attempt of the location pattern (scanner.py line 188) at the head of
the text: keyword, optional whitespace, then the capture group — a letter
run, optional whitespace, optional Hall/Room/Building, optional whitespace
and a digit run.  Returns the capture and the rest after the whole match. -/
def tryLocMatch (s : List Char) : Option (List Char × List Char) :=
  match firstKwSplit location_keywords s with
  | none => none
  | some (_, afterKw) =>
    match afterKw.dropWhile isPySpace with
    | [] => none
    | c :: cs =>
      if c.isAlpha then
        let afterWs := c :: cs
        let letters := afterWs.takeWhile Char.isAlpha
        let r1 := afterWs.dropWhile Char.isAlpha
        let ws1 := r1.takeWhile isPySpace
        let r2 := r1.dropWhile isPySpace
        let hrb := (matchHRB r2).1
        let r3 := (matchHRB r2).2
        let ws2 := r3.takeWhile isPySpace
        let r4 := r3.dropWhile isPySpace
        let digits := r4.takeWhile Char.isDigit
        let r5 := r4.dropWhile Char.isDigit
        some (letters ++ ws1 ++ hrb ++ ws2 ++ digits, r5)
      else none

/-- findall of the location pattern: leftmost non-overlapping matches, in
order.  Each miss advances one character and each hit consumes at least
two, so a fuel of one more than the length is never exhausted. -/
def locScanF : Nat → List Char → List (List Char)
  | 0, _ => []
  | _, [] => []
  | fuel + 1, c :: rest =>
    match tryLocMatch (c :: rest) with
    | some (cap, after) => cap :: locScanF fuel after
    | none => locScanF fuel rest

def location_captures (s : String) : List (List Char) :=
  locScanF (s.data.length + 1) s.data

/-- Embedding of filter_location (scanner.py lines 182-197): guard falsy input, find all
captures, strip each and keep the truthy ones, in order. -/
def filter_location (s : String) : Option (List String) :=
  if s = "" then none
  else
    some (((location_captures s).map
      (fun c => String.mk (stripList c))).filter (fun x => decide (x ≠ "")))

theorem stripList_idem (l : List Char) : stripList (stripList l) = stripList l :=
  stripList_fix (headNotWS_stripList l) (lastNotWS_stripList l)

/-- C8: every string filter_location returns is non-empty and already
stripped (the captures are returned stripped, in order of appearance, with
no deduplication), and on the example text the capture Grand Hall 3 is
among the returned candidates. -/
theorem filter_location_candidates :
    (∀ (t : String) (lst : List String), filter_location t = some lst →
        ∀ x ∈ lst, x ≠ "" ∧ stripList x.data = x.data) ∧
    filter_location "Meeting at Grand Hall 3 tomorrow" =
      some ["g", "Grand Hall 3"] ∧
    "Grand Hall 3" ∈ ["g", "Grand Hall 3"] := by
  refine ⟨?_, by decide, by decide⟩
  intro t lst hsome x hx
  have hlst : lst = ((location_captures t).map
      (fun c => String.mk (stripList c))).filter (fun x => decide (x ≠ "")) := by
    unfold filter_location at hsome
    by_cases ht : t = ""
    · rw [if_pos ht] at hsome
      exact Option.noConfusion hsome
    · rw [if_neg ht] at hsome
      exact (Option.some.inj hsome).symm
  rw [hlst] at hx
  rcases List.mem_filter.mp hx with ⟨hmem, hpred⟩
  refine ⟨of_decide_eq_true hpred, ?_⟩
  rcases List.mem_map.mp hmem with ⟨cap, _, hcap⟩
  rw [← hcap]
  show stripList (stripList cap) = stripList cap
  exact stripList_idem cap

/-- C8 witness: the properties hold of the example capture Grand Hall 3. -/
theorem filter_location_candidates_witness :
    ("Grand Hall 3" : String) ≠ "" ∧
      stripList ("Grand Hall 3" : String).data = ("Grand Hall 3" : String).data :=
  filter_location_candidates.1 "Meeting at Grand Hall 3 tomorrow"
    ["g", "Grand Hall 3"] filter_location_candidates.2.1 "Grand Hall 3"
    filter_location_candidates.2.2

def info_keywords : List String :=
  ["meeting", "appointment", "event", "call", "discussion", "session",
    "gathering", "conference", "webinar", "workshop", "gbm"]

/-- One attempt of the title pattern (scanner.py line 147) at the head of
the text: keyword, then the run matched by the whitespace and
letters-or-whitespace pieces (which jointly consume the maximal run of
letters and whitespace, and require it non-empty), then the optional
venue noun, optional whitespace and a digit run.  Returns group 0 — the
whole match — and the rest. -/
def tryInfoMatch (s : List Char) : Option (List Char × List Char) :=
  match firstKwSplit info_keywords s with
  | none => none
  | some (kw, afterKw) =>
    let run := afterKw.takeWhile (fun c => c.isAlpha || isPySpace c)
    if run = [] then none
    else
      let r1 := afterKw.dropWhile (fun c => c.isAlpha || isPySpace c)
      let hrb := (matchHRB r1).1
      let r2 := (matchHRB r1).2
      let ws2 := r2.takeWhile isPySpace
      let r3 := r2.dropWhile isPySpace
      let digits := r3.takeWhile Char.isDigit
      let r4 := r3.dropWhile Char.isDigit
      some (kw ++ run ++ hrb ++ ws2 ++ digits, r4)

/-- The first (leftmost) match of the title pattern, with its start offset. -/
def infoFirstAux : Nat → Nat → List Char → Option (Nat × List Char)
  | 0, _, _ => none
  | _, _, [] => none
  | fuel + 1, pos, c :: rest =>
    match tryInfoMatch (c :: rest) with
    | some (g0, _) => some (pos, g0)
    | none => infoFirstAux fuel (pos + 1) rest

def info_first (l : List Char) : Option (Nat × List Char) :=
  infoFirstAux (l.length + 1) 0 l

/-- Python slice text[a:b] for 0 ≤ a ≤ b ≤ len. -/
def pySlice (l : List Char) (a b : Nat) : List Char := (l.drop a).take (b - a)

/-- Embedding of filter_info (scanner.py lines 141-162): guard falsy input; on the first
match return the stripped match text and the stripped context window from
five characters before the match start to ten characters after the match
end, clamped to the text bounds; with no match fall off the loop and
return None. -/
def filter_info (s : String) : Option (List String) :=
  if s = "" then none
  else
    match info_first s.data with
    | none => none
    | some (mstart, g0) =>
      some [String.mk (stripList g0),
        String.mk (stripList (pySlice s.data (max 0 (mstart - 5))
          (min s.data.length (mstart + g0.length + 10))))]

/-- The context window exactly as the specification words it: the substring
of the text spanning offsets max(0, start - 5) to min(len, end + 10). -/
def context_window (l : List Char) (mstart mend : Nat) : List Char :=
  pySlice l (max 0 (mstart - 5)) (min l.length (mend + 10))

/-- C9 counterexample: filter_info strips the context window before
returning it (line 158), so on the text below — match span [5, 15), window
[0, 15) — the returned context lacks the two leading blanks of the
substring spanning those offsets, which the claim says is returned. -/
theorem filter_info_context_stripped :
    filter_info "  zz meeting ab" = some ["meeting ab", "zz meeting ab"] ∧
    info_first ("  zz meeting ab" : String).data = some (5, ("meeting ab" : String).data) ∧
    String.mk (context_window ("  zz meeting ab" : String).data 5 15) = "  zz meeting ab" ∧
    ("zz meeting ab" : String) ≠ "  zz meeting ab" := by
  refine ⟨by decide, by decide, by decide, by decide⟩

/-- C9 (amended): when the title pattern first matches with span
[start, end), filter_info returns the stripped match text together with the
context window — the substring from max(0, start-5) to min(len, end+10) —
with its leading and trailing whitespace stripped. -/
theorem filter_info_context_window_amended (s : String) (mstart : Nat) (g0 : List Char)
    (h : info_first s.data = some (mstart, g0)) :
    filter_info s = some [String.mk (stripList g0),
      String.mk (stripList (context_window s.data mstart (mstart + g0.length)))] := by
  have hs : ¬s = "" := by
    intro he
    rw [he] at h
    exact Option.noConfusion h
  unfold filter_info
  rw [if_neg hs, h]
  rfl

/-- C9 witness: a 50-character text with the match at offsets [20, 30); the
context spans offsets [15, 40). -/
theorem filter_info_context_window_amended_witness :
    filter_info "....................meeting ab...................." =
      some ["meeting ab", ".....meeting ab.........."] := by
  rw [filter_info_context_window_amended
    "....................meeting ab...................." 20
    (("meeting ab" : String).data) (by decide)]
  decide

end Scanner
